import Mathlib

/-!
Verification development for the py-obsidianmd metadata core.

The repository's Python package (`pyomd`) is specified in `spec.md`; its
metadata model is a pair of ordered key → value-sequence stores (frontmatter
and inline), a uniform set of mutation operations, and a text composer.
Note text is modelled as a list of lines (each line a `String` without
newline characters); parsing works on the character lists underlying each
line, mirroring the line-oriented scanning described in the spec.
-/

namespace Pyomd

/-! ## Character-list utilities used by the parsers -/

/-- Modelled from the spec: whitespace stripping used by the inline parser
(`.strip()` on values/keys); modelled as removal of space characters. -/
def isSpc (c : Char) : Bool := c = ' '

/-- Drop leading and trailing spaces from a character list. -/
def trimChars (cs : List Char) : List Char :=
  ((cs.dropWhile isSpc).reverse.dropWhile isSpc).reverse

/-- Split a character list at the first `:` occurrence; `none` if absent. -/
def splitColon : List Char → Option (List Char × List Char)
  | [] => none
  | c :: cs =>
    if c = ':' then some ([], cs)
    else match splitColon cs with
      | none => none
      | some (a, b) => some (c :: a, b)

/-- Split a character list at the first `::` occurrence; `none` if absent. -/
def splitSep : List Char → Option (List Char × List Char)
  | [] => none
  | c :: cs =>
    if c = ':' ∧ cs.head? = some ':' then some ([], cs.tail)
    else match splitSep cs with
      | none => none
      | some (a, b) => some (c :: a, b)

/-- Split a character list on every `,` (the pieces do not contain `,`). -/
def splitComma : List Char → List (List Char)
  | [] => [[]]
  | c :: cs =>
    if c = ',' then [] :: splitComma cs
    else match splitComma cs with
      | [] => [[c]]
      | p :: ps => (c :: p) :: ps

/-! ## The metadata store -/

/-- Modelled from the spec (§3 MetadataStore): an ordered mapping from key
to an ordered sequence of string values, realized as an association list;
keys are unique within a store, insertion order is meaningful. -/
abbrev MetadataStore := List (String × List String)

/-- The keys of a store, in order. -/
def storeKeys (s : MetadataStore) : List String := s.map Prod.fst

/-- Whether a key is present in the store. -/
def containsKey : MetadataStore → String → Bool
  | [], _ => false
  | e :: rest, k => e.1 = k || containsKey rest k

/-- The sequence associated with a key, `none` when the key is absent. -/
def lookupSeq (s : MetadataStore) (k : String) : Option (List String) :=
  match s with
  | [] => none
  | (k₀, vs) :: rest => if k₀ = k then some vs else lookupSeq rest k

/-- The sequence associated with a key, `[]` when the key is absent. -/
def getSeqD (s : MetadataStore) (k : String) : List String :=
  (lookupSeq s k).getD []

/-! ## Aggregator operations (spec §4.3)

Modelled from the spec: the `pyomd` `NoteMetadata` / `Metadata` operation
surface, whose implementation is not present in the repository snapshot
(only its tests and documentation are). Each operation follows the spec's
§4.3 description and the expected outputs recorded in the test data. -/

/-- Modelled from the spec (§3 MetadataKind): closed set selecting which
store(s) an operation targets. -/
inductive MetadataType where
  | frontmatter
  | inline
  | all
deriving DecidableEq

/-- Modelled from the spec (§3 Order): sort direction. -/
inductive Order where
  | asc
  | desc
deriving DecidableEq

/-- Append values onto a key's existing sequence; a missing key is created
at the end of the store. -/
def appendSeq (s : MetadataStore) (k : String) (vs : List String) : MetadataStore :=
  if containsKey s k then
    s.map (fun e => if e.1 = k then (e.1, e.2 ++ vs) else e)
  else s ++ [(k, vs)]

/-- Replace a key's sequence; a missing key is created at the end. -/
def setSeq (s : MetadataStore) (k : String) (vs : List String) : MetadataStore :=
  if containsKey s k then
    s.map (fun e => if e.1 = k then (e.1, vs) else e)
  else s ++ [(k, vs)]

/-- Delete a key (and its sequence) from the store entirely. -/
def removeKey (s : MetadataStore) (k : String) : MetadataStore :=
  s.filter (fun e => e.1 ≠ k)

/-- Remove every occurrence of each listed value from the key's sequence,
leaving the key itself present. -/
def removeVals (s : MetadataStore) (k : String) (vals : List String) : MetadataStore :=
  s.map (fun e => if e.1 = k then (e.1, e.2.filter (fun v => !vals.contains v)) else e)

/-- Modelled from the spec (§4.3 remove): `values = none` deletes the key
entirely; `values = some l` removes every occurrence of each listed value
but leaves the key present. Targeting an absent key is a no-op. -/
def removeMeta (s : MetadataStore) (k : String) (l : Option (List String)) : MetadataStore :=
  match l with
  | none => removeKey s k
  | some vals => removeVals s k vals

/-- A scalar value accepted by `add`: Python `str` or `int`. -/
inductive MetaValue where
  | str (s : String)
  | int (n : Int)
deriving DecidableEq

/-- Modelled from the spec and test data (tests-add n2_3/n2_6): non-string
scalars are coerced to their string form (`str(v)` in Python, decimal for
integers) before storing. -/
def renderValue : MetaValue → String
  | .str s => s
  | .int n => toString n

/-- The `l` argument of `add`: absent, a single scalar, or a list. -/
inductive AddValues where
  | nothing
  | one (v : MetaValue)
  | many (l : List MetaValue)

/-- The list of string values an `add` argument contributes. -/
def addValuesList : AddValues → List String
  | .nothing => []
  | .one v => [renderValue v]
  | .many l => l.map renderValue

/-- Modelled from the spec (§4.3 add): an absent key is created with the
given values (an absent argument creates it with an empty sequence); for a
present key, `overwrite = false` appends and `overwrite = true` replaces. -/
def addMeta (s : MetadataStore) (k : String) (l : AddValues) (overwrite : Bool) :
    MetadataStore :=
  if overwrite then setSeq s k (addValuesList l)
  else appendSeq s k (addValuesList l)

/-- Modelled from the spec (§4.3 move): appends the source sequence onto the
destination's existing sequence for that key, then deletes the key from the
source; with no key given this is done for every key of the source. -/
def moveStores (src dst : MetadataStore) (k : Option String) :
    MetadataStore × MetadataStore :=
  match k with
  | some key =>
    match lookupSeq src key with
    | none => (src, dst)
    | some vs => (removeKey src key, appendSeq dst key vs)
  | none => ([], src.foldl (fun d e => appendSeq d e.1 e.2) dst)

/-- `has` restricted to one store: the key exists and, when a values list is
given, every listed value is present in that key's sequence. -/
def hasStore (s : MetadataStore) (k : String) (l : Option (List String)) : Bool :=
  match lookupSeq s k with
  | none => false
  | some vs =>
    match l with
    | none => true
    | some vals => vals.all (fun v => vs.contains v)

/-- Modelled from the spec (§3 Note): a note owns one FRONTMATTER store and
one INLINE store. -/
structure MetaPair where
  fm : MetadataStore
  inl : MetadataStore

/-- The stores selected by a `MetadataType`, frontmatter first. -/
def selectedStores (p : MetaPair) : MetadataType → List MetadataStore
  | .frontmatter => [p.fm]
  | .inline => [p.inl]
  | .all => [p.fm, p.inl]

/-- Modelled from the spec (§4.3 has): true iff the key exists in at least
one selected store and, when `values` is given, every listed value is
present in that key's sequence. -/
def hasMeta (p : MetaPair) (k : String) (l : Option (List String))
    (t : MetadataType) : Bool :=
  (selectedStores p t).any (fun s => hasStore s k l)

/-- The key selector accepted by `remove_duplicate_values` / `order_values`:
all keys, a single key, or a list of keys. -/
inductive KeySel where
  | all
  | one (k : String)
  | several (ks : List String)

/-- Whether a key is targeted by a selector. -/
def targeted (sel : KeySel) (k : String) : Bool :=
  match sel with
  | .all => true
  | .one k₀ => k = k₀
  | .several ks => ks.contains k

/-- Apply a sequence transformation to exactly the targeted keys. -/
def mapTargeted (s : MetadataStore) (sel : KeySel) (f : List String → List String) :
    MetadataStore :=
  s.map (fun e => if targeted sel e.1 then (e.1, f e.2) else e)

/-- Collapse a list to its first-occurrence-unique values, preserving
original relative order (`seen` accumulates values already kept). -/
def dedupAux (seen : List String) : List String → List String
  | [] => []
  | v :: vs => if seen.contains v then dedupAux seen vs else v :: dedupAux (v :: seen) vs

/-- First-occurrence deduplication of a value sequence. -/
def dedupList (vs : List String) : List String := dedupAux [] vs

/-- Modelled from the spec (§4.3 remove_duplicate_values): collapses each
targeted key's sequence to first-occurrence-unique values. -/
def removeDuplicateValues (s : MetadataStore) (sel : KeySel) : MetadataStore :=
  mapTargeted s sel dedupList

/-- Ordinal comparison of character lists (by code point, never
locale-aware). -/
def leChars : List Char → List Char → Bool
  | [], _ => true
  | _ :: _, [] => false
  | a :: as, b :: bs => if a = b then leChars as bs else a.toNat ≤ b.toNat

/-- Ordinal (byte-wise) string comparison. -/
def strLe (a b : String) : Bool := leChars a.data b.data

/-- Ordinal string comparison for the requested direction. -/
def cmpOrder (how : Order) (a b : String) : Bool :=
  match how with
  | .asc => strLe a b
  | .desc => strLe b a

/-- Insert a value into a sorted list (stable insertion sort step). -/
def insertSorted (le : String → String → Bool) (x : String) :
    List String → List String
  | [] => [x]
  | y :: ys => if le x y then x :: y :: ys else y :: insertSorted le x ys

/-- Stable insertion sort of a value sequence. -/
def sortVals (le : String → String → Bool) : List String → List String
  | [] => []
  | x :: xs => insertSorted le x (sortVals le xs)

/-- Modelled from the spec (§4.3 order_values): sorts each targeted key's
value sequence lexicographically (stable, ordinal comparison). -/
def orderValues (s : MetadataStore) (sel : KeySel) (how : Order) : MetadataStore :=
  mapTargeted s sel (sortVals (cmpOrder how))

/-! ## Frontmatter model (spec §4.1)

Modelled from the spec: the `pyomd` `Frontmatter` class is not present in
the repository snapshot (only its tests are). Text is a list of lines; a
frontmatter block is an opening `---` line at the very start of the text
together with the next `---` line; its content must be a flat
key → scalar/list mapping. -/

/-- Whether a line's characters start with `- ` (a YAML list item). -/
def isItemChars (cs : List Char) : Bool := cs.take 2 = ['-', ' ']

/-- The shapes a line inside a frontmatter block can take. -/
inductive FmLine where
  | blank
  | item (v : String)
  | keyVal (k : String) (v : Option String)
  | bad
deriving DecidableEq

/-- Modelled from the spec (§4.1 parse): classify one line of a frontmatter
block: blank; a `- value` list item; `key:` (no value) or `key: value`;
anything else makes the block a non-mapping. -/
def parseFmLine (l : String) : FmLine :=
  let cs := l.data
  if cs = [] then .blank
  else if isItemChars cs then .item ⟨cs.drop 2⟩
  else
    match splitColon cs with
    | none => .bad
    | some (k, r) =>
      match r with
      | [] => .keyVal ⟨k⟩ none
      | ' ' :: v => .keyVal ⟨k⟩ (some ⟨v⟩)
      | _ => .bad

/-- An `InvalidFrontmatterError`-style failure marker. -/
inductive FmErr where
  | invalidFrontmatter
deriving DecidableEq

/-- Record a `key:`/`key: value` line in the store being built (a repeated
key replaces the earlier sequence, a fresh key is appended). -/
def addEntry (s : MetadataStore) (k : String) (vs : List String) : MetadataStore :=
  if containsKey s k then setSeq s k vs else s ++ [(k, vs)]

/-- Modelled from the spec (§4.1 parse): fold the block's lines into a
store; `cur` is the key a subsequent `- value` item attaches to. A bad
line, or an item with no current key, is a non-mapping top level. -/
def parseMappingAux : List String → MetadataStore → Option String →
    Except FmErr MetadataStore
  | [], acc, _ => .ok acc
  | l :: ls, acc, cur =>
    match parseFmLine l with
    | .blank => parseMappingAux ls acc cur
    | .bad => .error .invalidFrontmatter
    | .item v =>
      match cur with
      | none => .error .invalidFrontmatter
      | some k => parseMappingAux ls (appendSeq acc k [v]) (some k)
    | .keyVal k vOpt =>
      parseMappingAux ls (addEntry acc k vOpt.toList) (some k)

/-- Parse the content of a frontmatter block as a flat mapping. -/
def parseMapping (block : List String) : Except FmErr MetadataStore :=
  parseMappingAux block [] none

/-- Split a list of lines at the first `---` delimiter line; `none` when no
delimiter occurs before content ends. -/
def splitAtDelim : List String → Option (List String × List String)
  | [] => none
  | l :: ls =>
    if l = "---" then some ([], ls)
    else match splitAtDelim ls with
      | none => none
      | some (a, b) => some (l :: a, b)

/-- Modelled from the spec (§3 RawSegments, §7): the parsed note split into
the raw frontmatter block (delimiters included, `[]` when absent), the body,
and whether frontmatter parsing failed with `InvalidFrontmatterError`. -/
structure ParsedNote where
  fm : MetadataStore
  rawFm : List String
  body : List String
  fmError : Bool
deriving DecidableEq

/-- Modelled from the spec (§4.1 parse, §7): a text whose first line is not
exactly `---` has no frontmatter; otherwise the block up to the matching
`---` is parsed as a flat mapping. An unterminated block or a non-mapping
block raises `InvalidFrontmatterError`, leaves the frontmatter store empty,
and retains the malformed block text in the raw segments. -/
def noteFromText (text : List String) : ParsedNote :=
  match text with
  | [] => ⟨[], [], [], false⟩
  | l :: rest =>
    if l = "---" then
      match splitAtDelim rest with
      | none => ⟨[], text, [], true⟩
      | some (block, body) =>
        match parseMapping block with
        | .ok st => ⟨st, "---" :: (block ++ ["---"]), body, false⟩
        | .error _ => ⟨[], "---" :: (block ++ ["---"]), body, true⟩
    else ⟨[], [], text, false⟩

/-- Modelled from the spec (§4.1 exists): true iff the original text
contained a structurally valid frontmatter block. -/
def fmExists (n : ParsedNote) : Bool := !n.fmError && !n.rawFm.isEmpty

/-- The lines a store entry serializes to: `key: value` for a single value,
`key:` plus `- value` items for several, a bare `key:` for none. -/
def fmEntryLines (e : String × List String) : List String :=
  match e.2 with
  | [] => [e.1 ++ ":"]
  | [v] => [e.1 ++ ": " ++ v]
  | vs => (e.1 ++ ":") :: vs.map (fun v => "- " ++ v)

/-- The serialized content lines of a store (no delimiters). -/
def fmLines (s : MetadataStore) : List String := s.flatMap fmEntryLines

/-- Modelled from the spec (§4.1 to_string): render keys in store order,
wrapped in `---` delimiter lines; an empty store emits no block at all. -/
def fmToText (s : MetadataStore) : List String :=
  if s = [] then [] else "---" :: (fmLines s ++ ["---"])

/-- A line is well-shaped for a flat mapping (not classified `bad`). -/
def lineShaped (l : String) : Bool :=
  match parseFmLine l with
  | .bad => false
  | _ => true

/-- No `- value` item line occurs before the first `key:` line. -/
def noLeadingItem : List String → Bool
  | [] => true
  | l :: ls =>
    match parseFmLine l with
    | .blank => noLeadingItem ls
    | .item _ => false
    | _ => true

/-- Spec-side characterization (§4.1/§7): a frontmatter block's content is a
flat key→scalar/list mapping. -/
def validMapping (block : List String) : Bool :=
  block.all lineShaped && noLeadingItem block

/-- Spec-side characterization (§7): the text has a frontmatter-shaped block
that is structurally broken — an opening `---` line without a matching
closing delimiter before content ends, or a non-mapping top level. -/
def structurallyBroken (text : List String) : Bool :=
  text.head? = some "---" &&
    match splitAtDelim (text.drop 1) with
    | none => true
    | some (block, _) => !validMapping block

/-! ## Inline metadata model (spec §4.2)

Modelled from the spec: the `pyomd` `InlineMetadata` class is not present in
the repository snapshot (only its tests are). Body lines are scanned for
`key :: value[, value, ...]` tokens; keys may contain letters, digits,
spaces and hyphens; matching stops at the first `::` on the line; lines
inside a blockquote/callout prefix are scanned too. -/

/-- A character allowed in an inline metadata key. -/
def allowedKeyChar (c : Char) : Bool := c.isAlphanum || c = ' ' || c = '-'

/-- A valid inline key: nonempty and made of allowed characters only. -/
def keyOk (cs : List Char) : Bool := !cs.isEmpty && cs.all allowedKeyChar

/-- Strip one level of blockquote/callout quoting (`> `) from a line. -/
def stripQuote (cs : List Char) : List Char :=
  if cs.take 2 = ['>', ' '] then cs.drop 2 else cs

/-- Modelled from the spec (§4.2 parse): the comma-separated values after
the `::`, each stripped of surrounding spaces; an all-blank remainder
yields no values. -/
def parseVals (cs : List Char) : List String :=
  (((splitComma cs).map trimChars).filter (fun p => !p.isEmpty)).map (fun p => ⟨p⟩)

/-- Modelled from the spec (§4.2 parse): match one body line as an inline
metadata token, returning its key (stripped) and value list; `none` when
the line is not an inline field. -/
def parseInlineLine (l : String) : Option (String × List String) :=
  let cs := stripQuote l.data
  match splitSep cs with
  | none => none
  | some (kRaw, rest) =>
    let k := trimChars kRaw
    if keyOk k then some (⟨k⟩, parseVals rest) else none

/-- Fold the matched lines into a store: each matched line appends its
values to that key's sequence, preserving first-seen key order. -/
def parseInlineAux : List String → MetadataStore → MetadataStore
  | [], acc => acc
  | l :: ls, acc =>
    match parseInlineLine l with
    | none => parseInlineAux ls acc
    | some (k, vs) => parseInlineAux ls (appendSeq acc k vs)

/-- Modelled from the spec (§4.2 parse): scan all body lines for inline
tokens. -/
def inlineParse (body : List String) : MetadataStore := parseInlineAux body []

/-- The characters of the rendered value part: empty for no values, else a
space followed by the comma-joined values. -/
def renderValsChars : List String → List Char
  | [] => []
  | [v] => v.data
  | v :: vs => v.data ++ ',' :: ' ' :: renderValsChars vs

/-- One rendered inline field line: `key::` or `key:: v1, v2`. -/
def renderInlineLine (k : String) (vs : List String) : String :=
  match vs with
  | [] => ⟨k.data ++ [':', ':']⟩
  | _ => ⟨k.data ++ ':' :: ':' :: ' ' :: renderValsChars vs⟩

/-- The inline rendering templates (spec §4.2 to_string). -/
inductive InlineTml where
  | standard
  | callout
deriving DecidableEq

/-- Modelled from the spec (§4.2 to_string): one rendered line per key in
store order; the `callout` template prefixes every line with `> ` and puts a
callout-open marker line first. -/
def inlineToText (s : MetadataStore) (tml : InlineTml) : List String :=
  let lines := s.map (fun e => renderInlineLine e.1 e.2)
  match tml with
  | .standard => lines
  | .callout => "> [!info]- Metadata" :: lines.map (fun l => "> " ++ l)

/-- Whether a body line is a recognized inline-field line. -/
def isInlineLine (l : String) : Bool := (parseInlineLine l).isSome

/-- Collapse every run of consecutive blank lines to at most one blank line
(`prevBlank` records whether the previous kept line was blank). -/
def collapseBlanksAux : List String → Bool → List String
  | [], _ => []
  | l :: ls, prevBlank =>
    if l = "" then
      if prevBlank then collapseBlanksAux ls true
      else "" :: collapseBlanksAux ls true
    else l :: collapseBlanksAux ls false

/-- Modelled from the spec (§4.2 erase): remove every recognized
inline-field line and collapse blank-line runs to at most one blank. -/
def eraseInline (body : List String) : List String :=
  collapseBlanksAux (body.filter (fun l => !isInlineLine l)) false

/-! ## Content composer and note engine (spec §4.4, §4.5)

Modelled from the spec: the `pyomd` `Note.update_content` machinery is not
present in the repository snapshot. The composer consumes the final stores,
the original body from the raw segments, and the formatting configuration. -/

/-- Where the regenerated inline block is inserted. -/
inductive InlinePos where
  | top
  | bottom
deriving DecidableEq

/-- The composition configuration `{inline_position, inline_tml,
inline_inplace}`. -/
structure UpdateCfg where
  pos : InlinePos
  tml : InlineTml
  inplace : Bool

/-- The keys of the inline fields matched in the body, in order. -/
def matchedKeys (body : List String) : List String :=
  body.filterMap (fun l => (parseInlineLine l).map Prod.fst)

/-- Modelled from the spec (§4.4, inline_inplace=true): rewrite each
originally-matched inline line in place with the key's current values,
dropping lines whose key was deleted from the store. -/
def rewriteInPlace (inl : MetadataStore) (body : List String) : List String :=
  body.flatMap (fun l =>
    match parseInlineLine l with
    | none => [l]
    | some (k, _) =>
      if containsKey inl k then [renderInlineLine k (getSeqD inl k)] else [])

/-- Insert block lines at the requested position of a body. -/
def insertAt (pos : InlinePos) (block body : List String) : List String :=
  match pos with
  | .top => block ++ body
  | .bottom => body ++ block

/-- Modelled from the spec (§4.4): regenerate the note text from the final
stores, the original body and the configuration. Frontmatter is always fully
replaced by its reserialized form at the top (omitted when empty). With
`inline_inplace=false`, inline lines are stripped from the body (blank runs
collapsed) and one fresh inline block is inserted after the frontmatter
(`top`) or at document end (`bottom`); with `inline_inplace=true`, matched
lines are rewritten in place and only newly added keys are appended at the
configured position. -/
def compose (fm inl : MetadataStore) (body : List String) (cfg : UpdateCfg) :
    List String :=
  let fmBlock := fmToText fm
  if cfg.inplace then
    let body₁ := rewriteInPlace inl body
    let fresh := inl.filter (fun e => !(matchedKeys body).contains e.1)
    let freshBlock := if fresh.isEmpty then [] else inlineToText fresh cfg.tml
    fmBlock ++ insertAt cfg.pos freshBlock body₁
  else
    let body₁ := eraseInline body
    let inlBlock := if inl.isEmpty then [] else inlineToText inl cfg.tml
    fmBlock ++ insertAt cfg.pos inlBlock body₁

/-- Modelled from the spec (§3 Note, §4.5): a note owns its two stores, the
original body from the raw segments, and the cached composed text. -/
structure NoteState where
  fm : MetadataStore
  inl : MetadataStore
  body : List String
  content : List String

/-- Modelled from the spec (§4.5 update_content): recompose the cached text
from the current stores, the original body and the configuration; stores and
raw segments are untouched. -/
def updateContent (cfg : UpdateCfg) (n : NoteState) : NoteState :=
  { n with content := compose n.fm n.inl n.body cfg }

/-- Apply `update_content` a given number of times. -/
def updateContentIter (cfg : UpdateCfg) : Nat → NoteState → NoteState
  | 0, n => n
  | j + 1, n => updateContent cfg (updateContentIter cfg j n)

/-! ## Auxiliary predicates used by the theorems -/

/-- Mirror of `parseMappingAux`'s control flow as a pure validity check;
`haveKey` records whether a `key:` line has been seen (so `- value` items
are legal). -/
def okLines : List String → Bool → Bool
  | [], _ => true
  | l :: ls, haveKey =>
    match parseFmLine l with
    | .blank => okLines ls haveKey
    | .bad => false
    | .item _ => haveKey && okLines ls haveKey
    | .keyVal _ _ => okLines ls true

/-- A frontmatter key that serializes without colliding with the block
syntax: no `:`, not shaped like a `- ` item, no newline. -/
def fmKeySafe (k : String) : Bool :=
  !k.data.contains ':' && !isItemChars k.data && !k.data.contains '\n'

/-- A frontmatter value that serializes without collision: no newline. -/
def fmValSafe (v : String) : Bool := !v.data.contains '\n'

/-- A frontmatter store free of value-collision edge cases: unique keys,
collision-free keys and values. -/
def fmStoreSafe (s : MetadataStore) : Prop :=
  (storeKeys s).Nodup ∧
    ∀ e ∈ s, fmKeySafe e.1 = true ∧ ∀ v ∈ e.2, fmValSafe v = true

/-- An inline value that serializes without collision: nonempty, no comma,
no newline, already stripped. -/
def inlineValSafe (v : String) : Prop :=
  v.data ≠ [] ∧ ¬ v.data.contains ',' ∧ ¬ v.data.contains '\n' ∧
    trimChars v.data = v.data

/-- An inline store free of value-collision edge cases: unique keys made of
the allowed characters and already stripped, collision-free values. -/
def inlineStoreSafe (s : MetadataStore) : Prop :=
  (storeKeys s).Nodup ∧
    ∀ e ∈ s, (keyOk e.1.data = true ∧ trimChars e.1.data = e.1.data) ∧
      ∀ v ∈ e.2, inlineValSafe v

/-! ## Basic store lemmas -/

theorem containsKey_iff_mem (s : MetadataStore) (k : String) :
    containsKey s k = true ↔ k ∈ storeKeys s := by
  induction s with
  | nil => simp [containsKey, storeKeys]
  | cons e rest ih =>
    simp [containsKey, storeKeys, ih]
    exact or_congr eq_comm Iff.rfl

theorem containsKey_cons_false (e : String × List String) (rest : MetadataStore)
    (k : String) (h : containsKey (e :: rest) k = false) :
    e.1 ≠ k ∧ containsKey rest k = false := by
  simpa [containsKey] using h

theorem lookupSeq_eq_none (s : MetadataStore) (k : String)
    (h : containsKey s k = false) : lookupSeq s k = none := by
  induction s with
  | nil => rfl
  | cons e rest ih =>
    obtain ⟨h1, h2⟩ := containsKey_cons_false e rest k h
    simp [lookupSeq, h1, ih h2]

theorem lookupSeq_isSome_of_contains (s : MetadataStore) (k : String)
    (h : containsKey s k = true) : ∃ vs, lookupSeq s k = some vs := by
  induction s with
  | nil => simp [containsKey] at h
  | cons e rest ih =>
    by_cases hk : e.1 = k
    · exact ⟨e.2, by simp [lookupSeq, hk]⟩
    · simp [containsKey, hk] at h
      obtain ⟨vs, hvs⟩ := ih h
      exact ⟨vs, by simp [lookupSeq, hk, hvs]⟩

theorem contains_of_lookupSeq (s : MetadataStore) (k : String) (vs : List String)
    (h : lookupSeq s k = some vs) : containsKey s k = true := by
  induction s with
  | nil => simp [lookupSeq] at h
  | cons e rest ih =>
    by_cases hk : e.1 = k
    · simp [containsKey, hk]
    · simp [lookupSeq, hk] at h
      simp [containsKey, ih h]

theorem lookupSeq_map_if (s : MetadataStore) (k : String) (vs : List String)
    (f : List String → List String) (h : lookupSeq s k = some vs) :
    lookupSeq (s.map (fun e => if e.1 = k then (e.1, f e.2) else e)) k
      = some (f vs) := by
  induction s with
  | nil => simp [lookupSeq] at h
  | cons e rest ih =>
    simp only [List.map_cons]
    by_cases hk : e.1 = k
    · have h2 : e.2 = vs := by simpa [lookupSeq, hk] using h
      rw [if_pos hk]
      simp [lookupSeq, hk, h2]
    · rw [if_neg hk]
      simp only [lookupSeq, if_neg hk] at h ⊢
      exact ih h

theorem lookupSeq_map_if_ne (s : MetadataStore) (k k₂ : String)
    (f : List String → List String) (h : k₂ ≠ k) :
    lookupSeq (s.map (fun e => if e.1 = k then (e.1, f e.2) else e)) k₂
      = lookupSeq s k₂ := by
  induction s with
  | nil => simp [lookupSeq]
  | cons e rest ih =>
    simp only [List.map_cons]
    by_cases hk : e.1 = k
    · have he : e.1 ≠ k₂ := by rw [hk]; exact fun hh => h hh.symm
      rw [if_pos hk]
      simp [lookupSeq, he, ih]
    · rw [if_neg hk]
      by_cases hk₂ : e.1 = k₂ <;> simp [lookupSeq, hk₂, ih]

theorem lookupSeq_append_single (s : MetadataStore) (k : String) (vs : List String)
    (h : containsKey s k = false) :
    lookupSeq (s ++ [(k, vs)]) k = some vs := by
  induction s with
  | nil => simp [lookupSeq]
  | cons e rest ih =>
    obtain ⟨h1, h2⟩ := containsKey_cons_false e rest k h
    simp [lookupSeq, h1, ih h2]

theorem lookupSeq_append_single_ne (s : MetadataStore) (k k₂ : String)
    (vs : List String) (h : k₂ ≠ k) :
    lookupSeq (s ++ [(k, vs)]) k₂ = lookupSeq s k₂ := by
  induction s with
  | nil => simp [lookupSeq, Ne.symm h]
  | cons e rest ih =>
    by_cases hk₂ : e.1 = k₂ <;> simp [lookupSeq, hk₂, ih]

theorem lookupSeq_appendSeq_self (s : MetadataStore) (k : String)
    (vs : List String) :
    lookupSeq (appendSeq s k vs) k = some (getSeqD s k ++ vs) := by
  unfold appendSeq
  by_cases h : containsKey s k = true
  · obtain ⟨u, hu⟩ := lookupSeq_isSome_of_contains s k h
    rw [if_pos h]
    have hmap := lookupSeq_map_if s k u (fun l => l ++ vs) hu
    simpa [getSeqD, hu] using hmap
  · have h0 : containsKey s k = false := by simpa using h
    rw [if_neg h]
    rw [lookupSeq_append_single s k vs h0]
    simp [getSeqD, lookupSeq_eq_none s k h0]

theorem lookupSeq_appendSeq_ne (s : MetadataStore) (k k₂ : String)
    (vs : List String) (h : k₂ ≠ k) :
    lookupSeq (appendSeq s k vs) k₂ = lookupSeq s k₂ := by
  unfold appendSeq
  by_cases hc : containsKey s k = true
  · rw [if_pos hc]
    exact lookupSeq_map_if_ne s k k₂ (fun l => l ++ vs) h
  · rw [if_neg hc]
    exact lookupSeq_append_single_ne s k k₂ vs h

theorem lookupSeq_removeKey (s : MetadataStore) (k : String) :
    lookupSeq (removeKey s k) k = none := by
  induction s with
  | nil => rfl
  | cons e rest ih =>
    by_cases hk : e.1 = k
    · simpa [removeKey, hk] using ih
    · simpa [removeKey, lookupSeq, hk] using ih

theorem removeKey_of_not_contains (s : MetadataStore) (k : String)
    (h : containsKey s k = false) : removeKey s k = s := by
  induction s with
  | nil => rfl
  | cons e rest ih =>
    obtain ⟨h1, h2⟩ := containsKey_cons_false e rest k h
    simp only [removeKey] at ih ⊢
    rw [List.filter_cons, if_pos (by simpa using h1), ih h2]

theorem removeVals_of_not_contains (s : MetadataStore) (k : String)
    (vals : List String) (h : containsKey s k = false) :
    removeVals s k vals = s := by
  induction s with
  | nil => rfl
  | cons e rest ih =>
    obtain ⟨h1, h2⟩ := containsKey_cons_false e rest k h
    simp only [removeVals] at ih ⊢
    rw [List.map_cons, if_neg h1, ih h2]

theorem foldl_appendSeq_not_contains (src : MetadataStore) :
    ∀ (d : MetadataStore) (k : String), containsKey src k = false →
      lookupSeq (src.foldl (fun d e => appendSeq d e.1 e.2) d) k = lookupSeq d k := by
  induction src with
  | nil => intro d k _; rfl
  | cons e rest ih =>
    intro d k h
    obtain ⟨h1, h2⟩ := containsKey_cons_false e rest k h
    rw [List.foldl_cons, ih (appendSeq d e.1 e.2) k h2,
      lookupSeq_appendSeq_ne d e.1 k e.2 (Ne.symm h1)]

theorem foldl_appendSeq_lookup (src : MetadataStore) :
    ∀ (d : MetadataStore) (k : String) (vs : List String),
      (storeKeys src).Nodup → lookupSeq src k = some vs →
      lookupSeq (src.foldl (fun d e => appendSeq d e.1 e.2) d) k
        = some (getSeqD d k ++ vs) := by
  induction src with
  | nil => intro d k vs _ h; simp [lookupSeq] at h
  | cons e rest ih =>
    intro d k vs hnd h
    have hnd' : e.1 ∉ storeKeys rest ∧ (storeKeys rest).Nodup := by
      simpa [storeKeys] using hnd
    rw [List.foldl_cons]
    by_cases hk : e.1 = k
    · have hvs : e.2 = vs := by simpa [lookupSeq, hk] using h
      have hc : containsKey rest k = false := by
        rw [← hk]
        by_cases hc' : containsKey rest e.1 = true
        · exact absurd ((containsKey_iff_mem rest e.1).mp hc') hnd'.1
        · simpa using hc'
      rw [foldl_appendSeq_not_contains rest (appendSeq d e.1 e.2) k hc, hk, hvs,
        lookupSeq_appendSeq_self d k vs]
    · have h' : lookupSeq rest k = some vs := by simpa [lookupSeq, hk] using h
      rw [ih (appendSeq d e.1 e.2) k vs hnd'.2 h']
      have : getSeqD (appendSeq d e.1 e.2) k = getSeqD d k := by
        unfold getSeqD
        rw [lookupSeq_appendSeq_ne d e.1 k e.2 (Ne.symm hk)]
      rw [this]

/-! ## Lemmas about has and targeted selectors -/

theorem hasStore_iff (s : MetadataStore) (k : String) (l : Option (List String)) :
    hasStore s k l = true ↔
      ∃ vs, lookupSeq s k = some vs ∧ ∀ v ∈ l.getD [], vs.contains v = true := by
  unfold hasStore
  cases hvs : lookupSeq s k with
  | none => simp
  | some vs =>
    cases l with
    | none => simp
    | some vals => simp [List.all_eq_true]

theorem hasStore_empty_vals (s : MetadataStore) (k : String) :
    hasStore s k (some []) = hasStore s k none := by
  unfold hasStore
  cases lookupSeq s k <;> simp

theorem lookupSeq_mapTargeted_hit (s : MetadataStore) (sel : KeySel)
    (f : List String → List String) (k : String) (vs : List String)
    (ht : targeted sel k = true) (h : lookupSeq s k = some vs) :
    lookupSeq (mapTargeted s sel f) k = some (f vs) := by
  induction s with
  | nil => simp [lookupSeq] at h
  | cons e rest ih =>
    simp only [mapTargeted, List.map_cons] at ih ⊢
    by_cases he : e.1 = k
    · have hvs : e.2 = vs := by simpa [lookupSeq, he] using h
      rw [if_pos (by rw [he]; exact ht)]
      simp [lookupSeq, he, hvs]
    · have h' : lookupSeq rest k = some vs := by simpa [lookupSeq, he] using h
      by_cases hte : targeted sel e.1 = true
      · rw [if_pos hte]
        simp [lookupSeq, he, ih h']
      · rw [if_neg hte]
        simp [lookupSeq, he, ih h']

theorem lookupSeq_mapTargeted_miss (s : MetadataStore) (sel : KeySel)
    (f : List String → List String) (k : String)
    (ht : targeted sel k = false) :
    lookupSeq (mapTargeted s sel f) k = lookupSeq s k := by
  induction s with
  | nil => rfl
  | cons e rest ih =>
    simp only [mapTargeted, List.map_cons] at ih ⊢
    by_cases he : e.1 = k
    · have hne : targeted sel e.1 = false := by rw [he]; exact ht
      rw [if_neg (by simp [hne])]
      simp [lookupSeq, he]
    · by_cases hte : targeted sel e.1 = true
      · rw [if_pos hte]
        simp [lookupSeq, he, ih]
      · rw [if_neg hte]
        simp [lookupSeq, he, ih]

/-! ## Lemmas about the note engine -/

theorem updateContentIter_fields (cfg : UpdateCfg) (j : Nat) (n : NoteState) :
    (updateContentIter cfg j n).fm = n.fm ∧ (updateContentIter cfg j n).inl = n.inl ∧
      (updateContentIter cfg j n).body = n.body := by
  induction j with
  | zero => exact ⟨rfl, rfl, rfl⟩
  | succ j ih =>
    simp only [updateContentIter, updateContent]
    exact ih

/-! ## Claim theorems (aggregator and engine) -/

/-- C3: for every key present in source store A, `move(key, A, B)` makes the
key absent from A and sets B's sequence for the key to old-B ++ old-A
(appending, not overwriting); with no key given this holds for every key of
the source store. -/
theorem c3_move_partition (src dst : MetadataStore) (k : String)
    (vs : List String) (hnd : (storeKeys src).Nodup)
    (hk : lookupSeq src k = some vs) :
    (lookupSeq (moveStores src dst (some k)).1 k = none ∧
      lookupSeq (moveStores src dst (some k)).2 k = some (getSeqD dst k ++ vs)) ∧
    ((moveStores src dst none).1 = [] ∧
      ∀ k₂ vs₂, lookupSeq src k₂ = some vs₂ →
        lookupSeq (moveStores src dst none).2 k₂ = some (getSeqD dst k₂ ++ vs₂)) := by
  refine ⟨⟨?_, ?_⟩, rfl, ?_⟩
  · simp [moveStores, hk, lookupSeq_removeKey]
  · simp [moveStores, hk, lookupSeq_appendSeq_self]
  · intro k₂ vs₂ h₂
    simpa [moveStores] using foldl_appendSeq_lookup src dst k₂ vs₂ hnd h₂

/-- C4: for a present key, `remove(key, values, kind)` deletes every
occurrence of each listed value from the key's sequence while the key stays
present (possibly with an empty sequence); only `remove` with values absent
deletes the key entirely. -/
theorem c4_remove_values (s : MetadataStore) (k : String) (vals vs : List String)
    (hk : lookupSeq s k = some vs) :
    lookupSeq (removeMeta s k (some vals)) k
      = some (vs.filter (fun v => !vals.contains v)) ∧
    lookupSeq (removeMeta s k none) k = none := by
  constructor
  · exact lookupSeq_map_if s k vs (fun l => l.filter (fun v => !vals.contains v)) hk
  · exact lookupSeq_removeKey s k

/-- C8: `remove` and `move` targeting a key absent from the (source) store
are no-ops that leave the stores unchanged; in this total model they never
raise. -/
theorem c8_missing_key_noop (s dst : MetadataStore) (k : String)
    (vals : List String) (h : containsKey s k = false) :
    removeMeta s k none = s ∧ removeMeta s k (some vals) = s ∧
      moveStores s dst (some k) = (s, dst) := by
  refine ⟨removeKey_of_not_contains s k h,
    removeVals_of_not_contains s k vals h, ?_⟩
  simp [moveStores, lookupSeq_eq_none s k h]

/-- C7: `has(key, values, kind)` is true iff the key exists in at least one
selected store and every listed value is present in that key's sequence; in
particular `has(key, [])` coincides with bare key existence. -/
theorem c7_has (p : MetaPair) (k : String) (l : Option (List String))
    (t : MetadataType) :
    (hasMeta p k l t = true ↔
      ∃ s ∈ selectedStores p t, ∃ vs, lookupSeq s k = some vs ∧
        ∀ v ∈ l.getD [], vs.contains v = true) ∧
    hasMeta p k (some []) t = hasMeta p k none t := by
  constructor
  · unfold hasMeta
    rw [List.any_eq_true]
    constructor
    · rintro ⟨s, hs, hh⟩
      exact ⟨s, hs, (hasStore_iff s k l).mp hh⟩
    · rintro ⟨s, hs, hh⟩
      exact ⟨s, hs, (hasStore_iff s k l).mpr hh⟩
  · unfold hasMeta
    have : (fun s => hasStore s k (some [])) = (fun s => hasStore s k none) :=
      funext (fun s => hasStore_empty_vals s k)
    rw [this]

/-- C9: `add` coerces non-string scalar values to their string form before
storing: an integer argument appends its decimal rendering, and a list of
integers appends the rendering of each element; the store holds only
strings by construction. -/
theorem c9_add_coerces (s : MetadataStore) (k : String) (n : Int)
    (ints : List Int) :
    lookupSeq (addMeta s k (.one (.int n)) false) k
      = some (getSeqD s k ++ [toString n]) ∧
    lookupSeq (addMeta s k (.many (ints.map .int)) false) k
      = some (getSeqD s k ++ ints.map (fun i => toString i)) := by
  constructor
  · simpa [addMeta, addValuesList, renderValue] using
      lookupSeq_appendSeq_self s k [toString n]
  · have h := lookupSeq_appendSeq_self s k (ints.map (fun i => toString i))
    simpa [addMeta, addValuesList, renderValue, List.map_map, Function.comp] using h

/-- C10: the key selector of `remove_duplicate_values` and `order_values`
also accepts a list of keys: the operation is applied exactly to the listed
keys and every key not in the list keeps its sequence (duplicates and value
order included) unchanged. -/
theorem c10_list_selector (s : MetadataStore) (ks : List String) (how : Order)
    (k : String) :
    (ks.contains k = false →
      lookupSeq (removeDuplicateValues s (.several ks)) k = lookupSeq s k ∧
      lookupSeq (orderValues s (.several ks) how) k = lookupSeq s k) ∧
    (∀ vs, lookupSeq s k = some vs → ks.contains k = true →
      lookupSeq (removeDuplicateValues s (.several ks)) k = some (dedupList vs) ∧
      lookupSeq (orderValues s (.several ks) how) k
        = some (sortVals (cmpOrder how) vs)) := by
  constructor
  · intro hmiss
    exact ⟨lookupSeq_mapTargeted_miss s (.several ks) dedupList k hmiss,
      lookupSeq_mapTargeted_miss s (.several ks) (sortVals (cmpOrder how)) k hmiss⟩
  · intro vs hvs hhit
    exact ⟨lookupSeq_mapTargeted_hit s (.several ks) dedupList k vs hhit hvs,
      lookupSeq_mapTargeted_hit s (.several ks) (sortVals (cmpOrder how)) k vs hhit hvs⟩

/-- C2: with `inline_inplace=false` and unchanged stores and configuration,
applying `update_content` any number of times (two or more) yields text
byte-identical to the result of the first application. -/
theorem c2_update_content_idempotent (n : NoteState) (cfg : UpdateCfg) (j : Nat)
    (_h : cfg.inplace = false) :
    (updateContentIter cfg (j + 1) n).content = (updateContent cfg n).content := by
  induction j with
  | zero => rfl
  | succ j ih =>
    obtain ⟨h1, h2, h3⟩ := updateContentIter_fields cfg (j + 1) n
    simp only [updateContentIter, updateContent] at ih h1 h2 h3 ⊢
    rw [h1, h2, h3]

/-- C6: a text whose first line is not exactly the delimiter line (so every
delimiter-looking line occurs later in the body) is treated as having no
frontmatter: the store is empty, no error is raised, and exists() is
false. -/
theorem c6_delimiter_later (text : List String) (h : text.head? ≠ some "---") :
    (noteFromText text).fm = [] ∧ (noteFromText text).fmError = false ∧
      fmExists (noteFromText text) = false := by
  cases text with
  | nil => simp [noteFromText, fmExists]
  | cons l rest =>
    have hl : l ≠ "---" := by simpa using h
    simp [noteFromText, hl, fmExists]

/-! ## Character-level lemmas for the frontmatter parser -/

theorem mk_data (s : String) : (⟨s.data⟩ : String) = s := by
  cases s
  rfl

theorem contains_false_not_mem (l : List Char) (a : Char)
    (h : l.contains a = false) : a ∉ l := by
  simpa using h

theorem isItemChars_append_colon (cs r : List Char)
    (h : isItemChars cs = false) : isItemChars (cs ++ ':' :: r) = false := by
  match cs with
  | [] => simp [isItemChars]
  | [c] => simp [isItemChars]
  | a :: b :: t =>
    simp only [isItemChars, List.cons_append] at h ⊢
    simpa using h

theorem splitColon_append (cs r : List Char) (h : ':' ∉ cs) :
    splitColon (cs ++ ':' :: r) = some (cs, r) := by
  induction cs with
  | nil => simp [splitColon]
  | cons c t ih =>
    simp only [List.mem_cons, not_or] at h
    rw [List.cons_append, splitColon, if_neg (fun hc => h.1 hc.symm), ih h.2]

theorem parseFmLine_keyOnly (k : String) (hc : ¬ (':' ∈ k.data))
    (hi : isItemChars k.data = false) :
    parseFmLine (k ++ ":") = .keyVal k none := by
  have hdata : (k ++ ":").data = k.data ++ ':' :: [] := by
    rw [String.data_append]
  unfold parseFmLine
  rw [hdata]
  rw [if_neg (by simp), if_neg (by simp [isItemChars_append_colon k.data [] hi]),
    splitColon_append k.data [] hc]

theorem parseFmLine_kv (k v : String) (hc : ¬ (':' ∈ k.data))
    (hi : isItemChars k.data = false) :
    parseFmLine (k ++ ": " ++ v) = .keyVal k (some v) := by
  have hdata : (k ++ ": " ++ v).data = k.data ++ ':' :: ' ' :: v.data := by
    rw [String.data_append, String.data_append]
    simp
  unfold parseFmLine
  rw [hdata]
  rw [if_neg (by simp), if_neg (by simp [isItemChars_append_colon k.data _ hi]),
    splitColon_append k.data _ hc]
  simp [mk_data]

theorem parseFmLine_item (v : String) : parseFmLine ("- " ++ v) = .item v := by
  have hdata : ("- " ++ v).data = '-' :: ' ' :: v.data := by
    rw [String.data_append]
    rfl
  unfold parseFmLine
  rw [hdata]
  rw [if_neg (by simp), if_pos (by simp [isItemChars])]
  simp [mk_data]

/-! ## Store-building lemmas for the frontmatter parser -/

theorem containsKey_append_single (acc : MetadataStore) (k : String)
    (L : List String) : containsKey (acc ++ [(k, L)]) k = true := by
  induction acc with
  | nil => simp [containsKey]
  | cons e rest ih => simp [containsKey, ih]

theorem map_keyupdate_id (acc : MetadataStore) (k : String)
    (g : String × List String → String × List String)
    (h : containsKey acc k = false) :
    acc.map (fun e => if e.1 = k then g e else e) = acc := by
  induction acc with
  | nil => rfl
  | cons e rest ih =>
    obtain ⟨h1, h2⟩ := containsKey_cons_false e rest k h
    rw [List.map_cons, if_neg h1, ih h2]

theorem appendSeq_snoc (acc : MetadataStore) (k : String) (L vs : List String)
    (h : containsKey acc k = false) :
    appendSeq (acc ++ [(k, L)]) k vs = acc ++ [(k, L ++ vs)] := by
  unfold appendSeq
  rw [if_pos (containsKey_append_single acc k L), List.map_append,
    map_keyupdate_id acc k _ h]
  simp

theorem addEntry_snoc (acc : MetadataStore) (k : String) (vs : List String)
    (h : containsKey acc k = false) :
    addEntry acc k vs = acc ++ [(k, vs)] := by
  unfold addEntry
  rw [if_neg (by simp [h])]

/-! ## Delimiter lemmas -/

theorem keyOnly_ne_delim (k : String) : k ++ ":" ≠ "---" := by
  intro h
  have hmem : ':' ∈ (k ++ ":").data := by
    rw [String.data_append]
    simp
  rw [h] at hmem
  simp at hmem

theorem kv_ne_delim (k v : String) : k ++ ": " ++ v ≠ "---" := by
  intro h
  have hmem : ':' ∈ (k ++ ": " ++ v).data := by
    rw [String.data_append, String.data_append]
    simp
  rw [h] at hmem
  simp at hmem

theorem item_ne_delim (v : String) : "- " ++ v ≠ "---" := by
  intro h
  have hd : ("- " ++ v).data = '-' :: ' ' :: v.data := by
    rw [String.data_append]
    rfl
  have : ('-' : Char) :: ' ' :: v.data = ['-', '-', '-'] := by
    rw [← hd, h]
  simp at this

theorem fmEntryLines_ne_delim (e : String × List String) :
    ∀ l ∈ fmEntryLines e, l ≠ "---" := by
  intro l hl
  obtain ⟨k, vs⟩ := e
  match vs with
  | [] =>
    simp only [fmEntryLines] at hl
    simp at hl
    rw [hl]
    exact keyOnly_ne_delim k
  | [v] =>
    simp only [fmEntryLines] at hl
    simp at hl
    rw [hl]
    exact kv_ne_delim k v
  | v₁ :: v₂ :: tl =>
    simp only [fmEntryLines, List.mem_cons, List.mem_map] at hl
    rcases hl with h | ⟨v, _, hv⟩
    · rw [h]
      exact keyOnly_ne_delim k
    · rw [← hv]
      exact item_ne_delim v

theorem fmLines_not_delim (s : MetadataStore) : "---" ∉ fmLines s := by
  intro h
  rw [fmLines, List.mem_flatMap] at h
  obtain ⟨e, _, hl⟩ := h
  exact fmEntryLines_ne_delim e "---" hl rfl

theorem splitAtDelim_append (a b : List String) (h : "---" ∉ a) :
    splitAtDelim (a ++ "---" :: b) = some (a, b) := by
  induction a with
  | nil => simp [splitAtDelim]
  | cons l t ih =>
    simp only [List.mem_cons, not_or] at h
    rw [List.cons_append, splitAtDelim, if_neg (fun hc => h.1 hc.symm), ih h.2]

theorem splitAtDelim_spec (ls : List String) :
    ∀ a b, splitAtDelim ls = some (a, b) → ls = a ++ "---" :: b := by
  induction ls with
  | nil => intro a b h; simp [splitAtDelim] at h
  | cons l t ih =>
    intro a b h
    by_cases hl : l = "---"
    · rw [splitAtDelim, if_pos hl] at h
      obtain ⟨ha, hb⟩ : [] = a ∧ t = b := by simpa using h
      rw [← ha, ← hb, hl]
      rfl
    · rw [splitAtDelim, if_neg hl] at h
      cases hsp : splitAtDelim t with
      | none => rw [hsp] at h; simp at h
      | some p =>
        rw [hsp] at h
        obtain ⟨ha, hb⟩ : l :: p.1 = a ∧ p.2 = b := by
          cases p
          simpa using h
        rw [← ha, ← hb, List.cons_append]
        rw [ih p.1 p.2 (by rw [hsp])]

/-! ## Frontmatter round trip -/

theorem containsKey_append_pair (acc : MetadataStore) (k : String)
    (L : List String) (k₂ : String) :
    containsKey (acc ++ [(k, L)]) k₂ = (containsKey acc k₂ || k = k₂) := by
  induction acc with
  | nil => simp [containsKey]
  | cons e rest ih => simp [containsKey, ih, Bool.or_assoc]

theorem fmKeySafe_split (k : String) (h : fmKeySafe k = true) :
    ¬ (':' ∈ k.data) ∧ isItemChars k.data = false := by
  simp only [fmKeySafe, Bool.and_eq_true, Bool.not_eq_true'] at h
  exact ⟨contains_false_not_mem k.data ':' h.1.1, h.1.2⟩

theorem parseMappingAux_cons (l : String) (ls : List String)
    (acc : MetadataStore) (cur : Option String) :
    parseMappingAux (l :: ls) acc cur =
      match parseFmLine l with
      | .blank => parseMappingAux ls acc cur
      | .bad => .error .invalidFrontmatter
      | .item v =>
        match cur with
        | none => .error .invalidFrontmatter
        | some k => parseMappingAux ls (appendSeq acc k [v]) (some k)
      | .keyVal k vOpt =>
        parseMappingAux ls (addEntry acc k vOpt.toList) (some k) := rfl

theorem parseMappingAux_items (ts : List String) :
    ∀ (restLines : List String) (acc : MetadataStore) (k : String) (L : List String),
      containsKey acc k = false →
      parseMappingAux (ts.map (fun v => "- " ++ v) ++ restLines)
          (acc ++ [(k, L)]) (some k)
        = parseMappingAux restLines (acc ++ [(k, L ++ ts)]) (some k) := by
  induction ts with
  | nil =>
    intro restLines acc k L _
    simp
  | cons t ts ih =>
    intro restLines acc k L h
    rw [List.map_cons, List.cons_append]
    simp only [parseMappingAux, parseFmLine_item t]
    rw [appendSeq_snoc acc k L [t] h]
    rw [ih restLines acc k (L ++ [t]) h]
    simp

theorem parseMappingAux_fmLines (s : MetadataStore) :
    ∀ (acc : MetadataStore) (cur : Option String),
      (∀ e ∈ s, fmKeySafe e.1 = true) →
      (storeKeys s).Nodup →
      (∀ k ∈ storeKeys s, containsKey acc k = false) →
      parseMappingAux (fmLines s) acc cur = .ok (acc ++ s) := by
  induction s with
  | nil =>
    intro acc cur _ _ _
    simp [fmLines, parseMappingAux]
  | cons e rest ih =>
    intro acc cur hsafe hnd hdisj
    obtain ⟨k, vs⟩ := e
    obtain ⟨hc, hi⟩ := fmKeySafe_split k (hsafe (k, vs) (by simp))
    have hacc : containsKey acc k = false := hdisj k (by simp [storeKeys])
    have hnd' : k ∉ storeKeys rest ∧ (storeKeys rest).Nodup := by
      simpa [storeKeys] using hnd
    have hdisj0 : ∀ (L : List String), ∀ k₂ ∈ storeKeys rest,
        containsKey (acc ++ [(k, L)]) k₂ = false := by
      intro L k₂ hk₂
      rw [containsKey_append_pair]
      have h1 : containsKey acc k₂ = false :=
        hdisj k₂ (List.mem_cons_of_mem _ hk₂)
      have h2 : k ≠ k₂ := fun hh => hnd'.1 (hh ▸ hk₂)
      simp [h1, h2]
    have hsafe' : ∀ e ∈ rest, fmKeySafe e.1 = true :=
      fun e he => hsafe e (by simp [he])
    rw [fmLines, List.flatMap_cons]
    match vs with
    | [] =>
      rw [fmEntryLines]
      rw [List.singleton_append]
      simp only [parseMappingAux, parseFmLine_keyOnly k hc hi, Option.toList]
      rw [addEntry_snoc acc k [] hacc]
      rw [← fmLines, ih (acc ++ [(k, [])]) (some k) hsafe' hnd'.2 (hdisj0 [])]
      simp
    | [v] =>
      rw [fmEntryLines]
      rw [List.singleton_append]
      simp only [parseMappingAux, parseFmLine_kv k v hc hi, Option.toList]
      rw [addEntry_snoc acc k [v] hacc]
      rw [← fmLines, ih (acc ++ [(k, [v])]) (some k) hsafe' hnd'.2 (hdisj0 [v])]
      simp
    | v₁ :: v₂ :: tl =>
      rw [fmEntryLines]
      rw [List.cons_append]
      rw [parseMappingAux_cons, parseFmLine_keyOnly k hc hi]
      dsimp only [Option.toList]
      rw [addEntry_snoc acc k [] hacc]
      rw [← fmLines]
      rw [parseMappingAux_items (v₁ :: v₂ :: tl) (fmLines rest) acc k [] hacc]
      rw [List.nil_append]
      rw [ih (acc ++ [(k, v₁ :: v₂ :: tl)]) (some k) hsafe' hnd'.2
        (hdisj0 (v₁ :: v₂ :: tl))]
      simp

theorem fm_roundtrip (s : MetadataStore) (h : fmStoreSafe s) :
    (noteFromText (fmToText s)).fm = s ∧
      (noteFromText (fmToText s)).fmError = false := by
  by_cases hs : s = []
  · subst hs
    simp [fmToText, noteFromText]
  · rw [fmToText, if_neg hs]
    have hsp : splitAtDelim (fmLines s ++ ["---"]) = some (fmLines s, []) := by
      have hsd := splitAtDelim_append (fmLines s) [] (fmLines_not_delim s)
      simpa using hsd
    have hparse : parseMapping (fmLines s) = .ok s := by
      have hmain := parseMappingAux_fmLines s [] none
        (fun e he => (h.2 e he).1) h.1 (fun k _ => rfl)
      simpa [parseMapping] using hmain
    simp [noteFromText, hsp, hparse]

/-! ## Characterization of InvalidFrontmatterError -/

theorem parseMappingAux_error_iff (ls : List String) :
    ∀ (acc : MetadataStore) (cur : Option String),
      (parseMappingAux ls acc cur = .error .invalidFrontmatter) ↔
        okLines ls cur.isSome = false := by
  induction ls with
  | nil =>
    intro acc cur
    simp [parseMappingAux, okLines]
  | cons l t ih =>
    intro acc cur
    cases hpl : parseFmLine l with
    | blank => simp [parseMappingAux, okLines, hpl, ih]
    | bad => simp [parseMappingAux, okLines, hpl]
    | item v =>
      cases cur with
      | none => simp [parseMappingAux, okLines, hpl]
      | some k => simp [parseMappingAux, okLines, hpl, ih]
    | keyVal k vOpt => simp [parseMappingAux, okLines, hpl, ih]

theorem okLines_true_eq (ls : List String) :
    okLines ls true = ls.all lineShaped := by
  induction ls with
  | nil => rfl
  | cons l t ih =>
    cases hpl : parseFmLine l <;>
      simp [okLines, lineShaped, hpl, ih, List.all_cons]

theorem validMapping_eq_okLines (ls : List String) :
    validMapping ls = okLines ls false := by
  induction ls with
  | nil => rfl
  | cons l t ih =>
    cases hpl : parseFmLine l with
    | blank =>
      simp only [validMapping, okLines, noLeadingItem, hpl, List.all_cons,
        lineShaped] at ih ⊢
      rw [← ih]
      simp
    | bad => simp [validMapping, okLines, noLeadingItem, hpl, lineShaped]
    | item v => simp [validMapping, okLines, noLeadingItem, hpl, lineShaped]
    | keyVal k vOpt =>
      simp [validMapping, okLines, noLeadingItem, hpl, lineShaped,
        okLines_true_eq]

/-- C5: `InvalidFrontmatterError` is raised exactly when a
frontmatter-shaped block is structurally broken (an opening delimiter with
no matching closing delimiter before content ends, or a non-mapping top
level); the frontmatter store is then empty and the malformed block text is
retained in the raw segments (no data is discarded). -/
theorem noteFromText_cons (l : String) (rest : List String) :
    noteFromText (l :: rest) =
      if l = "---" then
        match splitAtDelim rest with
        | none => ⟨[], l :: rest, [], true⟩
        | some (block, body) =>
          match parseMapping block with
          | .ok st => ⟨st, "---" :: (block ++ ["---"]), body, false⟩
          | .error _ => ⟨[], "---" :: (block ++ ["---"]), body, true⟩
      else ⟨[], [], l :: rest, false⟩ := rfl

theorem c5_invalid_frontmatter (text : List String) :
    ((noteFromText text).fmError = true ↔ structurallyBroken text = true) ∧
    ((noteFromText text).fmError = true → (noteFromText text).fm = []) ∧
    (noteFromText text).rawFm ++ (noteFromText text).body = text := by
  cases text with
  | nil => simp [noteFromText, structurallyBroken]
  | cons l rest =>
    by_cases hl : l = "---"
    · subst hl
      cases hsp : splitAtDelim rest with
      | none => simp [noteFromText, structurallyBroken, hsp]
      | some p =>
        obtain ⟨block, body⟩ := p
        have hrest : rest = block ++ "---" :: body :=
          splitAtDelim_spec rest block body hsp
        cases hpm : parseMapping block with
        | ok st =>
          have hok : okLines block false = true := by
            by_cases hko : okLines block false = true
            · exact hko
            · have hcontra : parseMapping block = .error .invalidFrontmatter := by
                rw [parseMapping]
                rw [parseMappingAux_error_iff block [] none]
                simpa using hko
              rw [hpm] at hcontra
              simp at hcontra
          have hval : validMapping block = true := by
            rw [validMapping_eq_okLines, hok]
          have hnote : noteFromText ("---" :: rest)
              = ⟨st, "---" :: (block ++ ["---"]), body, false⟩ := by
            rw [noteFromText_cons, if_pos rfl, hsp]
            dsimp only
            rw [hpm]
          refine ⟨?_, ?_, ?_⟩
          · rw [hnote]
            simp [structurallyBroken, hsp, hval]
          · rw [hnote]
            simp
          · rw [hnote, hrest]
            simp
        | error e =>
          cases e
          have hko : okLines block false = false := by
            have herr := (parseMappingAux_error_iff block [] none).mp
              (by rw [← parseMapping]; exact hpm)
            simpa using herr
          have hval : validMapping block = false := by
            rw [validMapping_eq_okLines, hko]
          have hnote : noteFromText ("---" :: rest)
              = ⟨[], "---" :: (block ++ ["---"]), body, true⟩ := by
            rw [noteFromText_cons, if_pos rfl, hsp]
            dsimp only
            rw [hpm]
          refine ⟨?_, ?_, ?_⟩
          · rw [hnote]
            simp [structurallyBroken, hsp, hval]
          · rw [hnote]
            simp
          · rw [hnote, hrest]
            simp
    · simp [noteFromText, structurallyBroken, hl]

/-! ## Character-level lemmas for the inline parser -/

theorem keyOk_not_colon (cs : List Char) (h : keyOk cs = true) : ':' ∉ cs := by
  intro hmem
  simp only [keyOk, Bool.and_eq_true, List.all_eq_true] at h
  have := h.2 ':' hmem
  simp [allowedKeyChar] at this

theorem stripQuote_keyOk (cs r : List Char) (h : keyOk cs = true) :
    stripQuote (cs ++ r) = cs ++ r := by
  match cs with
  | [] => simp [keyOk] at h
  | c :: t =>
    have hc : allowedKeyChar c = true := by
      simp only [keyOk, Bool.and_eq_true, List.all_eq_true] at h
      exact h.2 c (by simp)
    have hcgt : c ≠ '>' := by
      intro hh
      rw [hh] at hc
      simp [allowedKeyChar] at hc
    rw [stripQuote, if_neg (by simp [hcgt])]

theorem splitSep_append (cs r : List Char) (h : ':' ∉ cs) :
    splitSep (cs ++ ':' :: ':' :: r) = some (cs, r) := by
  induction cs with
  | nil => simp [splitSep]
  | cons c t ih =>
    simp only [List.mem_cons, not_or] at h
    rw [List.cons_append, splitSep,
      if_neg (by simp; intro hc; exact absurd hc.symm h.1), ih h.2]

theorem trimChars_cons_space (cs : List Char) :
    trimChars (' ' :: cs) = trimChars cs := by
  simp [trimChars, List.dropWhile_cons, isSpc]

theorem splitComma_no_comma (cs : List Char) (h : ',' ∉ cs) :
    splitComma cs = [cs] := by
  induction cs with
  | nil => rfl
  | cons c t ih =>
    simp only [List.mem_cons, not_or] at h
    rw [splitComma, if_neg (fun hc => h.1 hc.symm), ih h.2]

theorem splitComma_append (a r : List Char) (h : ',' ∉ a) :
    splitComma (a ++ ',' :: r) = a :: splitComma r := by
  induction a with
  | nil => simp [splitComma]
  | cons c t ih =>
    simp only [List.mem_cons, not_or] at h
    rw [List.cons_append, splitComma, if_neg (fun hc => h.1 hc.symm), ih h.2]

theorem renderValsChars_two (v w : String) (ws : List String) :
    renderValsChars (v :: w :: ws) =
      v.data ++ ',' :: ' ' :: renderValsChars (w :: ws) := rfl

theorem parseVals_space_render (vs : List String)
    (h : ∀ v ∈ vs, inlineValSafe v) :
    parseVals (' ' :: renderValsChars vs) = vs := by
  induction vs with
  | nil => rfl
  | cons v tl ih =>
    obtain ⟨hne, hnc, _, htr⟩ := h v (by simp)
    match tl with
    | [] =>
      have hcm : ',' ∉ ' ' :: v.data := by
        simp only [List.mem_cons, not_or]
        exact ⟨by decide, contains_false_not_mem v.data ',' (by simpa using hnc)⟩
      show parseVals (' ' :: v.data) = [v]
      rw [parseVals, splitComma_no_comma (' ' :: v.data) hcm]
      simp [trimChars_cons_space, htr, hne, mk_data]
    | w :: ws =>
      have hcm : ',' ∉ ' ' :: v.data := by
        simp only [List.mem_cons, not_or]
        exact ⟨by decide, contains_false_not_mem v.data ',' (by simpa using hnc)⟩
      have hsplit : splitComma (' ' :: renderValsChars (v :: w :: ws))
          = (' ' :: v.data) :: splitComma (' ' :: renderValsChars (w :: ws)) := by
        rw [renderValsChars_two]
        rw [show ' ' :: (v.data ++ ',' :: ' ' :: renderValsChars (w :: ws))
            = (' ' :: v.data) ++ ',' :: (' ' :: renderValsChars (w :: ws)) from rfl]
        exact splitComma_append (' ' :: v.data) _ hcm
      have ihtl := ih (fun u hu => h u (by simp [hu]))
      rw [parseVals, hsplit]
      rw [List.map_cons]
      rw [trimChars_cons_space, htr]
      rw [List.filter_cons, if_pos (by simpa using hne)]
      rw [List.map_cons, mk_data]
      rw [parseVals] at ihtl
      rw [ihtl]

theorem parseInlineLine_render (k : String) (vs : List String)
    (hk : keyOk k.data = true) (ht : trimChars k.data = k.data)
    (hv : ∀ v ∈ vs, inlineValSafe v) :
    parseInlineLine (renderInlineLine k vs) = some (k, vs) := by
  have hc : ':' ∉ k.data := keyOk_not_colon k.data hk
  match vs with
  | [] =>
    show parseInlineLine ⟨k.data ++ ':' :: ':' :: []⟩ = some (k, [])
    unfold parseInlineLine
    dsimp only
    rw [stripQuote_keyOk k.data _ hk, splitSep_append k.data [] hc]
    dsimp only
    rw [ht, if_pos hk, mk_data]
    rfl
  | v :: tl =>
    show parseInlineLine
        ⟨k.data ++ ':' :: ':' :: ' ' :: renderValsChars (v :: tl)⟩
      = some (k, v :: tl)
    unfold parseInlineLine
    dsimp only
    rw [stripQuote_keyOk k.data _ hk,
      splitSep_append k.data (' ' :: renderValsChars (v :: tl)) hc]
    dsimp only
    rw [ht, if_pos hk, mk_data, parseVals_space_render (v :: tl) hv]

/-! ## Inline round trip -/

theorem appendSeq_fresh (acc : MetadataStore) (k : String) (vs : List String)
    (h : containsKey acc k = false) : appendSeq acc k vs = acc ++ [(k, vs)] := by
  unfold appendSeq
  rw [if_neg (by simp [h])]

theorem parseInlineAux_cons (l : String) (ls : List String)
    (acc : MetadataStore) :
    parseInlineAux (l :: ls) acc =
      match parseInlineLine l with
      | none => parseInlineAux ls acc
      | some (k, vs) => parseInlineAux ls (appendSeq acc k vs) := rfl

theorem parseInlineAux_render (s : MetadataStore) :
    ∀ acc : MetadataStore,
      (∀ e ∈ s, (keyOk e.1.data = true ∧ trimChars e.1.data = e.1.data) ∧
        ∀ v ∈ e.2, inlineValSafe v) →
      (storeKeys s).Nodup →
      (∀ k ∈ storeKeys s, containsKey acc k = false) →
      parseInlineAux (s.map (fun e => renderInlineLine e.1 e.2)) acc
        = acc ++ s := by
  induction s with
  | nil =>
    intro acc _ _ _
    simp [parseInlineAux]
  | cons e rest ih =>
    intro acc hsafe hnd hdisj
    obtain ⟨k, vs⟩ := e
    obtain ⟨⟨hk, ht⟩, hv⟩ := hsafe (k, vs) (by simp)
    have hacc : containsKey acc k = false := hdisj k (by simp [storeKeys])
    have hnd' : k ∉ storeKeys rest ∧ (storeKeys rest).Nodup := by
      simpa [storeKeys] using hnd
    have hdisj' : ∀ k₂ ∈ storeKeys rest,
        containsKey (acc ++ [(k, vs)]) k₂ = false := by
      intro k₂ hk₂
      rw [containsKey_append_pair]
      have h1 : containsKey acc k₂ = false :=
        hdisj k₂ (List.mem_cons_of_mem _ hk₂)
      have h2 : k ≠ k₂ := fun hh => hnd'.1 (hh ▸ hk₂)
      simp [h1, h2]
    have hsafe' : ∀ e ∈ rest, (keyOk e.1.data = true ∧
        trimChars e.1.data = e.1.data) ∧ ∀ v ∈ e.2, inlineValSafe v :=
      fun e he => hsafe e (by simp [he])
    rw [List.map_cons, parseInlineAux_cons, parseInlineLine_render k vs hk ht hv]
    dsimp only
    rw [appendSeq_fresh acc k vs hacc]
    rw [ih (acc ++ [(k, vs)]) hsafe' hnd'.2 hdisj']
    simp

/-- C1: for every metadata store without value-collision edge cases,
parsing the text produced by serializing the store returns a store equal to
the original, for both the frontmatter serialization and the (standard)
inline serialization. -/
theorem c1_parse_to_string_roundtrip (sf si : MetadataStore)
    (hf : fmStoreSafe sf) (hi : inlineStoreSafe si) :
    ((noteFromText (fmToText sf)).fm = sf ∧
      (noteFromText (fmToText sf)).fmError = false) ∧
    inlineParse (inlineToText si .standard) = si := by
  refine ⟨fm_roundtrip sf hf, ?_⟩
  have hmain := parseInlineAux_render si [] (fun e he => hi.2 e he) hi.1
    (fun k _ => rfl)
  simpa [inlineParse, inlineToText] using hmain

/-! ## Witnesses: each claim theorem applied at a concrete input -/

theorem c1_roundtrip_witness :
    (noteFromText (fmToText [("tags", ["t1", "t2"]), ("meta2", ["1,2,3"]),
        ("newmeta", [])])).fm
      = [("tags", ["t1", "t2"]), ("meta2", ["1,2,3"]), ("newmeta", [])] ∧
    inlineParse (inlineToText [("c1", ["foo", "foo bar"]), ("i9", [])] .standard)
      = [("c1", ["foo", "foo bar"]), ("i9", [])] :=
  ⟨(c1_parse_to_string_roundtrip
      [("tags", ["t1", "t2"]), ("meta2", ["1,2,3"]), ("newmeta", [])]
      [("c1", ["foo", "foo bar"]), ("i9", [])]
      (by unfold fmStoreSafe; decide) (by unfold inlineStoreSafe inlineValSafe; decide)).1.1,
   (c1_parse_to_string_roundtrip
      [("tags", ["t1", "t2"]), ("meta2", ["1,2,3"]), ("newmeta", [])]
      [("c1", ["foo", "foo bar"]), ("i9", [])]
      (by unfold fmStoreSafe; decide) (by unfold inlineStoreSafe inlineValSafe; decide)).2⟩

theorem c2_idempotent_witness :
    (updateContentIter ⟨.top, .standard, false⟩ 4
        ⟨[("tags", ["t1"])], [("c1", ["foo"])], ["body", "c1:: foo"], []⟩).content
      = (updateContent ⟨.top, .standard, false⟩
        ⟨[("tags", ["t1"])], [("c1", ["foo"])], ["body", "c1:: foo"], []⟩).content :=
  c2_update_content_idempotent
    ⟨[("tags", ["t1"])], [("c1", ["foo"])], ["body", "c1:: foo"], []⟩
    ⟨.top, .standard, false⟩ 3 rfl

theorem c3_move_witness :
    lookupSeq (moveStores [("tags", ["t1", "t2"]), ("fm", ["x"])]
        [("tags", ["t4"])] (some "tags")).1 "tags" = none ∧
    lookupSeq (moveStores [("tags", ["t1", "t2"]), ("fm", ["x"])]
        [("tags", ["t4"])] (some "tags")).2 "tags"
      = some ["t4", "t1", "t2"] := by
  have h := c3_move_partition [("tags", ["t1", "t2"]), ("fm", ["x"])]
    [("tags", ["t4"])] "tags" ["t1", "t2"] (by decide) (by decide)
  exact ⟨h.1.1, h.1.2⟩

theorem c4_remove_witness :
    lookupSeq (removeMeta [("tags", ["t1", "t2", "t3"])] "tags"
        (some ["t1", "t3"])) "tags" = some ["t2"] ∧
    lookupSeq (removeMeta [("tags", ["t1", "t2", "t3"])] "tags" none) "tags"
      = none := by
  have h := c4_remove_values [("tags", ["t1", "t2", "t3"])] "tags"
    ["t1", "t3"] ["t1", "t2", "t3"] (by decide)
  exact ⟨h.1, h.2⟩

theorem c5_invalid_witness :
    (noteFromText ["---", "unterminated: yes"]).fmError = true ∧
    (noteFromText ["---", "unterminated: yes"]).fm = [] ∧
    (noteFromText ["---", "unterminated: yes"]).rawFm
        ++ (noteFromText ["---", "unterminated: yes"]).body
      = ["---", "unterminated: yes"] := by
  have h := c5_invalid_frontmatter ["---", "unterminated: yes"]
  have herr := h.1.mpr (by decide)
  exact ⟨herr, h.2.1 herr, h.2.2⟩

theorem c6_later_delimiter_witness :
    (noteFromText ["body first", "---", "k: v", "---"]).fm = [] ∧
    (noteFromText ["body first", "---", "k: v", "---"]).fmError = false ∧
    fmExists (noteFromText ["body first", "---", "k: v", "---"]) = false :=
  c6_delimiter_later ["body first", "---", "k: v", "---"] (by decide)

theorem c7_has_witness :
    hasMeta ⟨[("f2", ["1"])], [("i9", [])]⟩ "i9" (some []) .inline
      = hasMeta ⟨[("f2", ["1"])], [("i9", [])]⟩ "i9" none .inline :=
  (c7_has ⟨[("f2", ["1"])], [("i9", [])]⟩ "i9" (some []) .inline).2

theorem c8_noop_witness :
    removeMeta [("tags", ["t1"])] "unk" none = [("tags", ["t1"])] ∧
    removeMeta [("tags", ["t1"])] "unk" (some ["x"]) = [("tags", ["t1"])] ∧
    moveStores [("tags", ["t1"])] [("c1", ["foo"])] (some "unk")
      = ([("tags", ["t1"])], [("c1", ["foo"])]) :=
  c8_missing_key_noop [("tags", ["t1"])] [("c1", ["foo"])] "unk" ["x"]
    (by decide)

theorem c9_add_witness :
    lookupSeq (addMeta [("meta3", ["foo, b bar"])] "meta3"
        (.one (.int 999)) false) "meta3" = some ["foo, b bar", "999"] ∧
    lookupSeq (addMeta [("meta3", ["foo, b bar"])] "meta3"
        (.many ([1, 2].map .int)) false) "meta3"
      = some ["foo, b bar", "1", "2"] := by
  have h := c9_add_coerces [("meta3", ["foo, b bar"])] "meta3" 999 [1, 2]
  exact ⟨h.1, h.2⟩

theorem c10_selector_witness :
    lookupSeq (orderValues [("i2", ["3", "2", "1"]), ("i1", ["z", "b", "c", "a"]),
        ("i9", [])] (.several ["i2", "i1"]) .asc) "i9" = some [] ∧
    lookupSeq (orderValues [("i2", ["3", "2", "1"]), ("i1", ["z", "b", "c", "a"]),
        ("i9", [])] (.several ["i2", "i1"]) .asc) "i2"
      = some ["1", "2", "3"] := by
  have hmiss := (c10_list_selector [("i2", ["3", "2", "1"]),
    ("i1", ["z", "b", "c", "a"]), ("i9", [])] ["i2", "i1"] .asc "i9").1 (by decide)
  have hhit := (c10_list_selector [("i2", ["3", "2", "1"]),
    ("i1", ["z", "b", "c", "a"]), ("i9", [])] ["i2", "i1"] .asc "i2").2
    ["3", "2", "1"] (by decide) (by decide)
  exact ⟨by rw [hmiss.2]; decide, by rw [hhit.2]; decide⟩

end Pyomd
